import Mathlib

/-!
Verification development for the Sentinel-Ai document ingestion and
privacy-masking pipeline.

Texts are modelled as `List Char` (ASCII inputs; the Python source operates on
`str`).  The regex-based PII detector (`backend/services/pii_service.py`), the
chunker and ingestion orchestrator (`backend/services/document_service.py`),
the embedding batcher (`backend/services/llm_service.py`) and the vector-store
deletion path (`backend/services/vector_store.py`) are embedded as executable
Lean functions, translated clause by clause from the Python source.
-/

namespace Sentinel

/-! ## Basic character and string helpers -/

/-- Python `\s` (ASCII whitespace, as used by `str.split`, `str.strip` and the
regex class `[\s]` on ASCII text). -/
def isSpacePy (c : Char) : Bool :=
  c = ' ' || c = '\t' || c = '\n' || c = '\r' || c = '\x0b' || c = '\x0c'

/-- Python regex `\w` on ASCII text: letters, digits, underscore. -/
def isWordChar (c : Char) : Bool :=
  c.isAlpha || c.isDigit || c = '_'

/-- `str.split()` with no argument: split on whitespace runs, discarding
empty pieces.  `cur` is the (reversed) word being accumulated. -/
def wordsAux : List Char → List Char → List (List Char)
  | [], cur => if cur = [] then [] else [cur.reverse]
  | c :: t, cur =>
      if isSpacePy c then
        (if cur = [] then wordsAux t [] else cur.reverse :: wordsAux t [])
      else wordsAux t (c :: cur)

/-- Python `text.split()`. -/
def splitWS (s : List Char) : List (List Char) := wordsAux s []

/-- Python `" ".join(parts)`. -/
def joinSpace : List (List Char) → List Char
  | [] => []
  | [x] => x
  | x :: xs => x ++ ' ' :: joinSpace xs

/-- Python `text.split(sep)` for a one-character separator (keeps empties). -/
def splitChar (sep : Char) : List Char → List (List Char)
  | [] => [[]]
  | c :: t =>
      match splitChar sep t with
      | [] => [[]]
      | h :: hs => if c = sep then [] :: h :: hs else (c :: h) :: hs

/-- Python `s.strip()` (ASCII whitespace). -/
def stripWS (s : List Char) : List Char :=
  ((s.dropWhile isSpacePy).reverse.dropWhile isSpacePy).reverse

/-- Fuel-driven body of `replaceAll`; fuel `s.length` suffices because every
step consumes at least one character. -/
def replaceAllF (pat rep : List Char) : Nat → List Char → List Char
  | 0, s => s
  | _ + 1, [] => []
  | fuel + 1, c :: rest =>
      if pat ≠ [] ∧ pat.isPrefixOf (c :: rest) then
        rep ++ replaceAllF pat rep fuel ((c :: rest).drop pat.length)
      else
        c :: replaceAllF pat rep fuel rest

/-- Python `s.replace(pat, rep)`: left-to-right, non-overlapping. -/
def replaceAll (pat rep s : List Char) : List Char :=
  replaceAllF pat rep s.length s

/-- Concatenation of a list of lists (used instead of library flatten to keep
kernel reduction predictable). -/
def concatAll : List (List α) → List α
  | [] => []
  | x :: xs => x ++ concatAll xs

/-- Whether `needle` occurs as a contiguous substring of `hay`. -/
def containsSub (needle hay : List Char) : Bool :=
  (List.range (hay.length + 1)).any
    (fun i => ((hay.drop i).take needle.length) = needle)

/-! ## A small regex engine (Python `re` semantics for the patterns used)

The PII service compiles its patterns with `re.IGNORECASE` and scans with
`re.finditer`.  The engine below implements exactly the constructs those ten
patterns use: character classes, literal characters, alternation (leftmost
preference), greedy counted repetition with backtracking, and the word
boundary `\b`.  `mpos` returns all candidate end positions of a match
starting at `i`, in backtracking preference order, so that the head of the
list is the match Python's engine returns. -/

inductive RE where
  /-- matches nothing, consumes nothing -/
  | epsR : RE
  /-- a character class (one character) -/
  | cls : (Char → Bool) → RE
  | seqR : RE → RE → RE
  /-- alternation, left alternative preferred -/
  | altR : RE → RE → RE
  /-- greedy repetition: at least `mn`, at most `mx` (`none` = unbounded) -/
  | rep : RE → Nat → Option Nat → RE
  /-- word boundary `\b` -/
  | wb : RE

/-- True iff position `i` of `s` is a `\b` boundary. -/
def atBoundary (s : List Char) (i : Nat) : Bool :=
  let wAt : Nat → Bool := fun j =>
    match s[j]? with
    | some c => isWordChar c
    | none => false
  (if i = 0 then false else wAt (i - 1)) != wAt i

/-- Greedy repetition: `f` yields candidate ends of one body match; prefer
consuming another body copy (longest first), never loop on empty body
matches.  Fuel `s.length + 1` suffices since every accepted body copy
consumes at least one character. -/
def repGo (f : Nat → List Nat) (mn mx : Nat) : Nat → Nat → List Nat
  | 0, i => if mn = 0 then [i] else []
  | fuel + 1, i =>
      let more :=
        if mx = 0 then []
        else concatAll ((f i).map
          (fun j => if i < j then repGo f (mn - 1) (mx - 1) fuel j else []))
      let here := if mn = 0 then [i] else []
      more ++ here

/-- Candidate end positions (preference order) of a match of `re` in `s`
starting at position `i`. -/
def mpos (s : List Char) : RE → Nat → List Nat
  | .epsR, i => [i]
  | .cls p, i =>
      match s[i]? with
      | some c => if p c then [i + 1] else []
      | none => []
  | .seqR a b, i => concatAll ((mpos s a i).map (mpos s b))
  | .altR a b, i => mpos s a i ++ mpos s b i
  | .rep a mn mx, i => repGo (mpos s a) mn (mx.getD s.length) (s.length + 1) i
  | .wb, i => if atBoundary s i then [i] else []

/-- One scan step of `re.finditer`: try the leftmost start position, emit the
backtracking-preferred match, continue after it (zero-width matches advance
by one, as Python does). -/
def scanFrom (re : RE) (s : List Char) : Nat → Nat → List (Nat × Nat)
  | 0, _ => []
  | fuel + 1, i =>
      if i > s.length then []
      else
        match (mpos s re i).head? with
        | some j => (i, j) :: scanFrom re s fuel (if i < j then j else i + 1)
        | none => scanFrom re s fuel (i + 1)

/-- Python `re.finditer(pattern, s)`: all non-overlapping matches as
`(start, end)` spans, leftmost first. -/
def findIter (re : RE) (s : List Char) : List (Nat × Nat) :=
  scanFrom re s (s.length + 2) 0

/-! ### The ten patterns of `PIIService.PATTERNS`, under `re.IGNORECASE` -/

/-- literal character -/
def chR (c : Char) : RE := .cls (fun x => x = c)

def seqs : List RE → RE := fun l => l.foldr RE.seqR .epsR

def strLit (cs : List Char) : RE := seqs (cs.map chR)

/-- `{n,m}` greedy -/
def rng (a : RE) (mn mx : Nat) : RE := .rep a mn (some mx)

/-- `+` -/
def plusR (a : RE) : RE := .rep a 1 none

/-- `{n,}` -/
def atLeast (a : RE) (n : Nat) : RE := .rep a n none

/-- `?` -/
def optR (a : RE) : RE := .rep a 0 (some 1)

/-- `[A-Z]` under IGNORECASE -/
def alphaCls : RE := .cls (fun c => c.isAlpha)

/-- `[A-Z0-9]` under IGNORECASE -/
def alnumCls : RE := .cls (fun c => c.isAlpha || c.isDigit)

/-- `\d` -/
def digitCls : RE := .cls (fun c => c.isDigit)

/-- `[\s]` -/
def wsCls : RE := .cls isSpacePy

/-- `[\s\-]` -/
def wsDashCls : RE := .cls (fun c => isSpacePy c || c = '-')

/-- `[./]` -/
def dotSlashCls : RE := .cls (fun c => c = '.' || c = '/')

/-- `[A-Za-z0-9._%+-]` (local part of an email) -/
def emailLocalCls : RE :=
  .cls (fun c => c.isAlphanum || c = '.' || c = '_' || c = '%' || c = '+' || c = '-')

/-- `[A-Za-z0-9.-]` (domain characters) -/
def domainCls : RE := .cls (fun c => c.isAlphanum || c = '.' || c = '-')

/-- `[A-Z|a-z]` — note the literal `|` inside the class, as in the source -/
def tldCls : RE := .cls (fun c => c.isAlpha || c = '|')

/-- `\b[A-Za-z0-9._%+-]+@[A-Za-z0-9.-]+\.[A-Z|a-z]{2,}\b` -/
def emailRE : RE :=
  seqs [.wb, plusR emailLocalCls, chR '@', plusR domainCls, chR '.',
        atLeast tldCls 2, .wb]

/-- `\b(?:\+49|0049|0)[\s\-]?(?:\d{2,4})[\s\-]?(?:\d{3,})[\s\-]?(?:\d{2,})\b` -/
def phoneRE : RE :=
  seqs [.wb, .altR (strLit ('+' :: ('4' :: ['9']))) (.altR (strLit ['0','0','4','9']) (strLit ['0'])),
        optR wsDashCls, rng digitCls 2 4, optR wsDashCls, atLeast digitCls 3,
        optR wsDashCls, atLeast digitCls 2, .wb]

/-- `\b[A-Z]{2}\d{2}[\s]?(?:\d{4}[\s]?){4,7}\d{0,2}\b` -/
def ibanRE : RE :=
  seqs [.wb, rng alphaCls 2 2, rng digitCls 2 2, optR wsCls,
        rng (seqs [rng digitCls 4 4, optR wsCls]) 4 7, rng digitCls 0 2, .wb]

/-- `\b[A-Z]{4}[A-Z]{2}[A-Z0-9]{2}(?:[A-Z0-9]{3})?\b` -/
def bicRE : RE :=
  seqs [.wb, rng alphaCls 4 4, rng alphaCls 2 2, rng alnumCls 2 2,
        optR (rng alnumCls 3 3), .wb]

/-- `\b\d{5}\b` -/
def plzRE : RE := seqs [.wb, rng digitCls 5 5, .wb]

/-- `\b(?:\d{1,2}[./]\d{1,2}[./]\d{2,4})\b` -/
def dateRE : RE :=
  seqs [.wb, rng digitCls 1 2, dotSlashCls, rng digitCls 1 2, dotSlashCls,
        rng digitCls 2 4, .wb]

/-- `\b\d{2}[\s]?\d{3}[\s]?\d{3}[\s]?\d{3}\b` -/
def steuerRE : RE :=
  seqs [.wb, rng digitCls 2 2, optR wsCls, rng digitCls 3 3, optR wsCls,
        rng digitCls 3 3, optR wsCls, rng digitCls 3 3, .wb]

/-- `\b\d{2}[\s]?\d{6}[\s]?[A-Z][\s]?\d{3}\b` -/
def sozvRE : RE :=
  seqs [.wb, rng digitCls 2 2, optR wsCls, rng digitCls 6 6, optR wsCls,
        alphaCls, optR wsCls, rng digitCls 3 3, .wb]

/-- `\b(?:\d{4}[\s\-]?){3}\d{4}\b` -/
def kreditRE : RE :=
  seqs [.wb, rng (seqs [rng digitCls 4 4, optR wsDashCls]) 3 3,
        rng digitCls 4 4, .wb]

/-- `\b(?:\d{1,3}\.){3}\d{1,3}\b` -/
def ipRE : RE :=
  seqs [.wb, rng (seqs [rng digitCls 1 3, chR '.']) 3 3, rng digitCls 1 3, .wb]

/-- `PIIService.PATTERNS`, in dict insertion order. -/
def PATTERNS : List (List Char × RE) :=
  [("email".data, emailRE),
   ("phone_de".data, phoneRE),
   ("iban".data, ibanRE),
   ("bic".data, bicRE),
   ("plz_de".data, plzRE),
   ("date_de".data, dateRE),
   ("steuer_id".data, steuerRE),
   ("sozialversicherung".data, sozvRE),
   ("kreditkarte".data, kreditRE),
   ("ip_address".data, ipRE)]

/-- `PIIService.MASK_PATTERNS`. -/
def MASK_PATTERNS : List (List Char × List Char) :=
  [("email".data, "[EMAIL]".data),
   ("phone_de".data, "[TELEFON]".data),
   ("iban".data, "[IBAN]".data),
   ("bic".data, "[BIC]".data),
   ("plz_de".data, "[PLZ]".data),
   ("date_de".data, "[DATUM]".data),
   ("steuer_id".data, "[STEUER-ID]".data),
   ("sozialversicherung".data, "[SOZVERS-NR]".data),
   ("kreditkarte".data, "[KREDITKARTE]".data),
   ("PERSON".data, "[PERSON]".data),
   ("ORG".data, "[ORGANISATION]".data),
   ("LOC".data, "[ORT]".data),
   ("GPE".data, "[ORT]".data),
   ("ip_address".data, "[IP-ADRESSE]".data)]

/-- Assoc-list lookup (Python `dict.get`). -/
def lookupL (k : List Char) : List (List Char × List Char) → Option (List Char)
  | [] => none
  | (k', v) :: t => if k' = k then some v else lookupL k t

/-- `MASK_PATTERNS.get(key, "[REDACTED]")`. -/
def maskGet (k : List Char) : List Char :=
  (lookupL k MASK_PATTERNS).getD ("[REDACTED]".data)

/-! ## PII data model and `detect_pii` -/

/-- `PIIMatch` from `pii_service.py` (the field `end` is called `endPos`
here because `end` is a Lean keyword). -/
structure PIIMatch where
  type : List Char
  value : List Char
  start : Nat
  endPos : Nat
  masked_value : List Char
deriving DecidableEq, Repr

/-- `PIIResult` from `pii_service.py`. -/
structure PIIResult where
  original_text : List Char
  masked_text : List Char
  pii_detected : Bool
  /-- the source calls this field `matches` (a reserved word in Lean) -/
  matchList : List PIIMatch
deriving DecidableEq, Repr

/-- A named-entity span as returned by the external spaCy capability
(`ent.label_`, `ent.text`, `ent.start_char`, `ent.end_char`). -/
structure SpacyEnt where
  label : List Char
  etext : List Char
  start_char : Nat
  end_char : Nat

/-- The `PIIService` configuration: the `enabled` flag and the optional
entity-recognition capability (`self.nlp`; `none` models the regex-only
fallback when no spaCy model is available). -/
structure PIIService where
  enabled : Bool
  nlp : Option (List Char → List SpacyEnt)

/-- An enabled service with the entity recognizer unavailable (the
regex-only degradation mode of the source). -/
def regexSvc : PIIService := ⟨true, none⟩

/-- Python slice `s[i:j]` (`match.group()`), with the usual clamping. -/
def sliceIJ (s : List Char) (i j : Nat) : List Char := (s.drop i).take (j - i)

/-- Step 1 of `detect_pii`: the regex-based candidate matches, pattern by
pattern in `PATTERNS` order. -/
def regexMatches (text : List Char) : List PIIMatch :=
  concatAll (PATTERNS.map (fun p =>
    (findIter p.2 text).map (fun ij =>
      { type := p.1, value := sliceIJ text ij.1 ij.2,
        start := ij.1, endPos := ij.2, masked_value := maskGet p.1 })))

/-- The entity labels `detect_pii` keeps from the recognizer. -/
def nerLabels : List (List Char) :=
  ["PER".data, "PERSON".data, "ORG".data, "LOC".data, "GPE".data]

/-- Step 2 of `detect_pii`: the spaCy-based candidate matches (empty when
the capability is unavailable). -/
def nerMatches (svc : PIIService) (text : List Char) : List PIIMatch :=
  match svc.nlp with
  | none => []
  | some f =>
      (f text).filterMap (fun e =>
        if nerLabels.contains e.label then
          some { type := e.label, value := e.etext, start := e.start_char,
                 endPos := e.end_char, masked_value := maskGet e.label }
        else none)

/-- Python `masked_text[:start] + replacement + masked_text[end:]`. -/
def splice (t : List Char) (s e : Nat) (r : List Char) : List Char :=
  t.take s ++ r ++ t.drop e

/-- Stable insertion into a list sorted by `start` descending. -/
def insertDesc (m : PIIMatch) : List PIIMatch → List PIIMatch
  | [] => [m]
  | x :: xs => if m.start ≤ x.start then x :: insertDesc m xs else m :: x :: xs

/-- Python `sorted(matches, key=lambda m: m.start, reverse=True)` (stable,
descending by start offset). -/
def sortDesc (ms : List PIIMatch) : List PIIMatch :=
  ms.foldl (fun acc m => insertDesc m acc) []

/-- The `(start, end)` span of a match. -/
def spanOf (m : PIIMatch) : Nat × Nat := (m.start, m.endPos)

/-- Step 3 of `detect_pii`: walk the sorted candidates, keep a set of
consumed spans, splice each not-yet-consumed span.  Returns the final text
and the consumed-span set. -/
def maskLoop (working : List Char) :
    List PIIMatch → List (Nat × Nat) → List Char × List (Nat × Nat)
  | [], consumed => (working, consumed)
  | m :: rest, consumed =>
      if spanOf m ∈ consumed then
        maskLoop working rest consumed
      else
        maskLoop (splice working m.start m.endPos m.masked_value) rest
          (spanOf m :: consumed)

/-- The full masking pass: sort descending, then splice with span dedup. -/
def applyMasks (t : List Char) (ms : List PIIMatch) : List Char :=
  (maskLoop t (sortDesc ms) []).1

/-- `PIIService.detect_pii(text, mask)`, translated clause by clause. -/
def detect_pii (svc : PIIService) (text : List Char) (mask : Bool) : PIIResult :=
  if !svc.enabled then
    { original_text := text, masked_text := text,
      pii_detected := false, matchList := [] }
  else
    let ms := regexMatches text ++ nerMatches svc text
    let masked := if mask && !ms.isEmpty then applyMasks text ms else text
    { original_text := text, masked_text := masked,
      pii_detected := ms.length != 0, matchList := ms }


/-! ## The chunker (`DocumentService._chunk_text`) -/

/-- The inner overlap loop of `_chunk_text`: walk the closed chunk's words
backward (`ws` is the reversed word list), accumulating words while the
running length stays strictly under `co` (`chunk_overlap`); each accepted
word adds `len(word) + 1` to the running length.  Returns
`(overlap_words, overlap_len)`. -/
def overlapWalk (co : Nat) : List (List Char) → List (List Char) → Nat →
    List (List Char) × Nat
  | [], acc, n => (acc, n)
  | w :: ws, acc, n =>
      if n + w.length < co then overlapWalk co ws (w :: acc) (n + w.length + 1)
      else (acc, n)

/-- The words seeding the chunk that follows a closed chunk of text `t`:
computed by `overlapWalk` when `len(t) > chunk_overlap`, empty otherwise
(mirrors the `if len(overlap_text) > self.chunk_overlap` branch). -/
def seedWords (co : Nat) (t : List Char) : List (List Char) :=
  if t.length > co then (overlapWalk co (splitWS t).reverse [] 0).1 else []

/-- The seed carried into the next chunk, as a string. -/
def seedStr (co : Nat) (t : List Char) : List Char := joinSpace (seedWords co t)

/-- The running length `overlapWalk` pairs with `seedWords`. -/
def seedLen (co : Nat) (t : List Char) : Nat :=
  if t.length > co then (overlapWalk co (splitWS t).reverse [] 0).2 else 0

/-- One iteration of the `for sentence in sentences` loop of `_chunk_text`.
State: `(chunks, current_chunk, current_length)`. -/
def chunkStep (cs co : Nat) (st : List (List Char) × List (List Char) × Nat)
    (sentRaw : List Char) : List (List Char) × List (List Char) × Nat :=
  let s := stripWS sentRaw
  if s = [] then st
  else
    let chunks := st.1
    let cur := st.2.1
    let curLen := st.2.2
    if curLen + s.length > cs ∧ cur ≠ [] then
      let closed := joinSpace cur
      (chunks ++ [closed], seedWords co closed ++ [s], seedLen co closed + s.length + 1)
    else
      (chunks, cur ++ [s], curLen + s.length + 1)

/-- The sentence list `_chunk_text` iterates over: normalize whitespace
(`" ".join(text.split())`), mark sentence ends by replacing `". "`, `"? "`,
`"! "` with a newline-terminated form, split on newlines. -/
def chunkSentences (text : List Char) : List (List Char) :=
  splitChar '\n'
    (replaceAll ("! ".data) ("!\n".data)
      (replaceAll ("? ".data) ("?\n".data)
        (replaceAll (". ".data) (".\n".data) (joinSpace (splitWS text)))))

/-- The final flush of `_chunk_text`: a non-empty accumulator becomes the
last chunk. -/
def chunkFlush (st : List (List Char) × List (List Char) × Nat) :
    List (List Char) :=
  if st.2.1 ≠ [] then st.1 ++ [joinSpace st.2.1] else st.1

/-- `DocumentService._chunk_text(text)` with `chunk_size = cs` and
`chunk_overlap = co`: normalize whitespace, split into sentence-like units
on `". "`, `"? "`, `"! "`, accumulate sentences into chunks, seed each new
chunk with the overlap suffix of the closed one, and flush the final
accumulator. -/
def chunkText (cs co : Nat) (text : List Char) : List (List Char) :=
  chunkFlush ((chunkSentences text).foldl (chunkStep cs co) ([], [], 0))

/-! ## The embedding batcher (`LLMService.generate_embeddings_batch`) -/

/-- Fuel-driven body of `batchesOf`; fuel `l.length` suffices because every
batch takes at least one element. -/
def batchesOfF : Nat → List α → Nat → List (List α)
  | 0, _, _ => []
  | _ + 1, [], _ => []
  | fuel + 1, x :: xs, bs =>
      (x :: xs.take (bs - 1)) :: batchesOfF fuel (xs.drop (bs - 1)) bs

/-- The `texts[i:i+batch_size]` slices taken by the batching loop, for
`batch_size = bs ≥ 1` (Python raises on a zero step). -/
def batchesOf (l : List α) (bs : Nat) : List (List α) :=
  batchesOfF l.length l bs

/-- The texts handed to `generate_embedding`, one call per text, in the
order the batch loop issues them. -/
def embedCallTexts (texts : List (List Char)) (bs : Nat) : List (List Char) :=
  concatAll (batchesOf texts bs)

/-! ## The ingestion pipeline and the two stores -/

/-- One iteration of the `for chunk in chunks` loop of `process_document`
step 3: append the masked text, OR in the per-chunk `pii_detected` flag. -/
def mcfStep (psvc : PIIService) (acc : List (List Char) × Bool)
    (c : List Char) : List (List Char) × Bool :=
  let r := detect_pii psvc c true
  (acc.1 ++ [r.masked_text], acc.2 || r.pii_detected)

/-- The per-chunk loop of `process_document` step 3: accumulate
`masked_chunks` and the document-level `pii_detected` flag. -/
def maskedChunksAndFlag (psvc : PIIService) (chunks : List (List Char)) :
    List (List Char) × Bool :=
  chunks.foldl (mcfStep psvc) ([], false)

/-- All texts an ingestion of `text` passes to the embedding capability
(step 4 of `process_document` via `generate_embeddings_batch`). -/
def embeddingCallsOf (psvc : PIIService) (cs co bs : Nat) (text : List Char) :
    List (List Char) :=
  embedCallTexts (maskedChunksAndFlag psvc (chunkText cs co text)).1 bs

/-- The decimal digit character `"0123456789"[k]` (only ever applied to
`k = n % 10 < 10`; the final catch-all is `'9'`, reached exactly at 9). -/
def digitOf : Nat → Char
  | 0 => '0' | 1 => '1' | 2 => '2' | 3 => '3' | 4 => '4'
  | 5 => '5' | 6 => '6' | 7 => '7' | 8 => '8' | _ => '9'

/-- Fuel-driven decimal printing; fuel `n` suffices for `n ≥ 1`. -/
def natDigitsF : Nat → Nat → List Char → List Char
  | 0, _, acc => acc
  | fuel + 1, n, acc =>
      if n = 0 then acc else natDigitsF fuel (n / 10) (digitOf (n % 10) :: acc)

/-- Decimal representation of a natural number (Python `str(i)`). -/
def natDigits (n : Nat) : List Char :=
  if n = 0 then ['0'] else natDigitsF n n []

/-- The chunk identifier `f"{document_id}_chunk_{i}"`. -/
def mkCid (docId : List Char) (i : Nat) : List Char :=
  docId ++ ("_chunk_".data ++ natDigits i)

/-- One entry of the vector index: the chunk id and the `document_id`
field of its metadata. -/
structure IndexEntry where
  cid : List Char
  docId : List Char
deriving DecidableEq, Repr

/-- The document metadata record kept in `documents_metadata` (the fields
the claims are about). -/
structure DocMeta where
  filename : List Char
  chunk_count : Nat
  pii_detected : Bool
deriving DecidableEq, Repr

/-- The two physical stores: the ChromaDB collection and the
`documents_metadata` dict (as an association list, one binding per key). -/
structure IngestStore where
  index : List IndexEntry
  metadata : List (List Char × DocMeta)
deriving DecidableEq, Repr

/-- Dict lookup for `documents_metadata`. -/
def lookupKey (k : List Char) : List (List Char × DocMeta) → Option DocMeta
  | [] => none
  | kv :: t => if kv.1 = k then some kv.2 else lookupKey k t

/-- `del documents_metadata[k]`. -/
def removeKey (k : List Char) (l : List (List Char × DocMeta)) :
    List (List Char × DocMeta) :=
  l.filter (fun kv => kv.1 ≠ k)

/-- `documents_metadata[k] = v` (dict assignment: the key gets exactly one
binding). -/
def insertKey (k : List Char) (v : DocMeta) (l : List (List Char × DocMeta)) :
    List (List Char × DocMeta) :=
  (k, v) :: removeKey k l

/-- The ids `list_documents` exposes (one row per metadata record). -/
def listDocuments (st : IngestStore) : List (List Char) :=
  st.metadata.map (fun kv => kv.1)

/-- Pipeline failure stages. -/
inductive PDErr where
  /-- `ValueError` on empty extracted text -/
  | extractEmpty : PDErr
  /-- the vector-index upsert (`add_documents`) re-raised -/
  | upsertFailed : PDErr
deriving DecidableEq, Repr

/-- `DocumentService.process_document`, from the extracted text on:
chunk (`_chunk_text`), mask each chunk (`detect_pii(chunk, mask=True)`),
embed the masked chunks, upsert all chunks in one batch call, then write
the metadata record.  `upsertFails` models `add_documents` raising (the
exception propagates; nothing is written).  `docId` stands for the
generated `uuid4`. -/
def processDocument (psvc : PIIService) (cs co bs : Nat) (upsertFails : Bool)
    (docId fn text : List Char) (st : IngestStore) :
    Except PDErr (List Char × Nat × Bool) × IngestStore :=
  if text = [] then (.error .extractEmpty, st)
  else
    let chunks := chunkText cs co text
    let mk := maskedChunksAndFlag psvc chunks
    let _embedded := embedCallTexts mk.1 bs
    if upsertFails then (.error .upsertFailed, st)
    else
      let newEntries := (List.range mk.1.length).map
        (fun i => { cid := mkCid docId i, docId := docId : IndexEntry })
      let st2 : IngestStore :=
        { index := st.index ++ newEntries,
          metadata := insertKey docId
            { filename := fn, chunk_count := chunks.length,
              pii_detected := mk.2 } st.metadata }
      (.ok (docId, chunks.length, mk.2), st2)

/-! ## The erasure coordinator -/

/-- `collection.get(where={"document_id": id})["ids"]`. -/
def collectionGetIds (vs : List IndexEntry) (docId : List Char) :
    List (List Char) :=
  (vs.filter (fun e => e.docId = docId)).map (fun e => e.cid)

/-- `collection.delete(ids=ids)` — one batch call with all found ids:
every entry whose id is in the list is removed. -/
def collectionDeleteIds (vs : List IndexEntry) (ids : List (List Char)) :
    List IndexEntry :=
  vs.filter (fun e => decide (e.cid ∉ ids))

/-- `VectorStoreService.delete_by_document_id`: find the chunk ids for the
document, delete them in one batch call, return whether any were deleted.
`raises` models the ChromaDB call raising — the `except` clause catches it
and returns `False` with the store unchanged. -/
def delete_by_document_id (raises : Bool) (vs : List IndexEntry)
    (docId : List Char) : List IndexEntry × Bool :=
  if raises then (vs, false)
  else
    let ids := collectionGetIds vs docId
    if ids ≠ [] then (collectionDeleteIds vs ids, true) else (vs, false)

/-- `DocumentService.delete_document`: refuse when the id has no metadata
record; otherwise call the index-side deletion (its return value is
discarded, as in the source), delete the metadata record, return `True`. -/
def delete_document (raises : Bool) (st : IngestStore) (docId : List Char) :
    IngestStore × Bool :=
  if (lookupKey docId st.metadata).isNone then (st, false)
  else
    let vs := delete_by_document_id raises st.index docId
    ({ index := vs.1, metadata := removeKey docId st.metadata }, true)

/-- States reachable from an empty deployment through ingestions (successful
or failed, any parameters) and erasures (successful or raising). -/
inductive Reachable : IngestStore → Prop
  | init : Reachable { index := [], metadata := [] }
  | ingest (psvc : PIIService) (cs co bs : Nat) (upsertFails : Bool)
      (docId fn text : List Char) (st : IngestStore) :
      Reachable st →
      Reachable (processDocument psvc cs co bs upsertFails docId fn text st).2
  | erase (raises : Bool) (docId : List Char) (st : IngestStore) :
      Reachable st → Reachable (delete_document raises st docId).1


/-! ## Derived definitions used by the claim statements -/

/-- The credit-card example input used to exercise the masking passes. -/
def ccInput : List Char := "1234 5678 9012 3456".data

/-- The input whose PLZ match value re-occurs inside a longer digit run. -/
def plzInput : List Char := "12345 and 123456".data

/-- Concrete matches used by the C7 witness: two candidates with the same
span, and two candidates with distinct, textually overlapping spans. -/
def wA : PIIMatch :=
  { type := ("t".data), value := ("cd".data), start := 2, endPos := 4,
    masked_value := ("[X]".data) }

/-- Same span as `wA`, different replacement. -/
def wB : PIIMatch :=
  { type := ("u".data), value := ("cd".data), start := 2, endPos := 4,
    masked_value := ("[Y]".data) }

/-- Span `(2,5)`. -/
def wC : PIIMatch :=
  { type := ("t".data), value := ("cde".data), start := 2, endPos := 5,
    masked_value := ("[X]".data) }

/-- Span `(1,3)`: overlaps `wC` textually but is not identical. -/
def wD : PIIMatch :=
  { type := ("u".data), value := ("bc".data), start := 1, endPos := 3,
    masked_value := ("[Y]".data) }

/-- The document metadata record used in the erasure examples. -/
def exMeta : DocMeta :=
  { filename := ("f.txt".data), chunk_count := 1, pii_detected := false }

/-- A store holding one document with one chunk in both stores. -/
def exStore : IngestStore :=
  { index := [{ cid := ("d1_chunk_0".data), docId := ("d1".data) }],
    metadata := [(("d1".data), exMeta)] }

/-- A store with a chunk in the vector index but no metadata record. -/
def orphanStore : IngestStore :=
  { index := [{ cid := ("d1_chunk_0".data), docId := ("d1".data) }],
    metadata := [] }

/-- Every index entry's chunk id is derived from its own document id. -/
def wfIndex (st : IngestStore) : Prop :=
  ∀ e ∈ st.index, ∃ j, e.cid = mkCid e.docId j

/-- Every metadata record's chunks are present in the vector index. -/
def chunksPresent (st : IngestStore) : Prop :=
  ∀ kv ∈ st.metadata, ∀ i, i < kv.2.chunk_count →
    ({ cid := mkCid kv.1 i, docId := kv.1 } : IndexEntry) ∈ st.index

/-- The invariant the sentence loop maintains: the closed chunks satisfy
the seeding relation pairwise, and a nonempty accumulator (after at least
one close) starts with the seed words of the last closed chunk. -/
def ChunkStInv (co : Nat) (st : List (List Char) × List (List Char) × Nat) :
    Prop :=
  List.Chain' (fun a b => (seedStr co a).isPrefixOf b = true) st.1
  ∧ (st.1 ≠ [] → ∃ rest, rest ≠ []
      ∧ st.2.1 = seedWords co (st.1.getLast?.getD []) ++ rest)

/-- The seeding rule exactly as the claim words it: the next chunk starts
empty only when the closed chunk's text is STRICTLY SHORTER than
`overlap_size`; otherwise the backward word walk supplies the seed. -/
def claimSeed (co : Nat) (t : List Char) : List Char :=
  if t.length < co then []
  else joinSpace (overlapWalk co (splitWS t).reverse [] 0).1


/-! ## Claim theorems -/

/-- C9: on `"Kontakt: max@firma.de, Tel: 030 12345678"`, `detect_pii` with
masking enabled reports PII, the detected spans are exactly the email and
the phone number, and the masked text replaces them by `[EMAIL]` and
`[TELEFON]` with every other character unaltered. -/
theorem c9_concrete_detection :
    (detect_pii regexSvc ("Kontakt: max@firma.de, Tel: 030 12345678".data) true).pii_detected
        = true
    ∧ (detect_pii regexSvc ("Kontakt: max@firma.de, Tel: 030 12345678".data) true).masked_text
        = ("Kontakt: [EMAIL], Tel: [TELEFON]".data)
    ∧ ((detect_pii regexSvc ("Kontakt: max@firma.de, Tel: 030 12345678".data) true).matchList.map
        (fun m => (m.type, m.value)))
        = [("email".data, "max@firma.de".data), ("phone_de".data, "030 12345678".data)] := by
  refine ⟨by decide, by decide, by decide⟩

/-- C10: a `PIIService` constructed with `enabled = False` performs no
detection at all: for every text and both values of the mask flag the
result echoes the input as `masked_text`, reports `pii_detected = False`
and an empty match list — PII passes through unmasked. -/
theorem c10_disabled_service_passthrough
    (nlp : Option (List Char → List SpacyEnt)) (text : List Char) (mask : Bool) :
    detect_pii { enabled := false, nlp := nlp } text mask =
      { original_text := text, masked_text := text,
        pii_detected := false, matchList := [] } := rfl

/-- C3: masking is not idempotent.  On `"1234 5678 9012 3456"` the first
pass yields `"[KREDITKARTE]"`; re-masking that text yields `"[[BIC]]"`
because the replacement token `KREDITKARTE` itself matches the
case-insensitive BIC pattern.  Re-masking an already-masked text is
therefore not a no-op. -/
theorem c3_idempotence_code_bug :
    (detect_pii regexSvc ccInput true).masked_text = ("[KREDITKARTE]".data)
    ∧ (detect_pii regexSvc ((detect_pii regexSvc ccInput true).masked_text) true).masked_text
        = ("[[BIC]]".data)
    ∧ (detect_pii regexSvc ((detect_pii regexSvc ccInput true).masked_text) true).masked_text
        ≠ (detect_pii regexSvc ccInput true).masked_text := by
  refine ⟨by decide, by decide, by decide⟩

/-- C4: re-scanning a masked output with the fixed regex pattern table does
not always yield zero matches: the masked text of `"1234 5678 9012 3456"`
is `"[KREDITKARTE]"`, and the pattern table finds a `bic` match
(`"KREDITKARTE"`) inside it. -/
theorem c4_rescan_code_bug :
    (detect_pii regexSvc ccInput true).masked_text = ("[KREDITKARTE]".data)
    ∧ regexMatches ((detect_pii regexSvc ccInput true).masked_text) ≠ []
    ∧ (regexMatches ((detect_pii regexSvc ccInput true).masked_text)).map
        (fun m => (m.type, m.value))
        = [("bic".data, "KREDITKARTE".data)] := by
  refine ⟨by decide, by decide, by decide⟩

/-! ### C1: what the embedding capability receives -/

/-- The masked-chunks fold, started from any accumulator, appends the
per-chunk masked texts in order. -/
theorem mcfStep_foldl_fst (psvc : PIIService) :
    ∀ (chunks : List (List Char)) (acc : List (List Char)) (b : Bool),
      (chunks.foldl (mcfStep psvc) (acc, b)).1
        = acc ++ chunks.map (fun c => (detect_pii psvc c true).masked_text) := by
  intro chunks
  induction chunks with
  | nil => intro acc b; simp
  | cons c cs ih =>
      intro acc b
      simp only [List.foldl_cons, List.map_cons, mcfStep]
      rw [ih]
      simp

/-- `masked_chunks` is exactly the per-chunk masked text, in chunk order. -/
theorem maskedChunksAndFlag_fst (psvc : PIIService) (chunks : List (List Char)) :
    (maskedChunksAndFlag psvc chunks).1
      = chunks.map (fun c => (detect_pii psvc c true).masked_text) := by
  have h := mcfStep_foldl_fst psvc chunks [] false
  simpa [maskedChunksAndFlag] using h

/-- Batching never reorders, drops or alters a text: flattening the batch
slices gives back the original list. -/
theorem concatAll_batchesOfF (bs : Nat) :
    ∀ (fuel : Nat) (l : List α), l.length ≤ fuel →
      concatAll (batchesOfF fuel l bs) = l := by
  intro fuel
  induction fuel with
  | zero =>
      intro l hl
      have : l = [] := List.eq_nil_of_length_eq_zero (Nat.le_zero.mp hl)
      subst this; rfl
  | succ n ih =>
      intro l hl
      cases l with
      | nil => rfl
      | cons x xs =>
          have hx : (xs.drop (bs - 1)).length ≤ n := by
            have := List.length_drop (bs - 1) xs
            simp only [List.length_cons] at hl
            omega
          simp only [batchesOfF, concatAll, ih _ hx]
          simp [List.take_append_drop]

/-- The call sequence of `generate_embeddings_batch` is the input text list
itself, for any positive batch size. -/
theorem embedCallTexts_eq (texts : List (List Char)) (bs : Nat) :
    embedCallTexts texts bs = texts :=
  concatAll_batchesOfF bs texts.length texts (Nat.le_refl _)

/-- C1 (amended): during ingestion the i-th call to the embedding
capability receives exactly `detect_pii(chunk_i, mask=True).masked_text` —
the embedding call sequence equals the masked text of the chunks, in chunk
order, for any positive batch size.  (The original claim's further demand
that no call contain any substring equal to a raw PII match value fails;
see the counterexample.) -/
theorem c1_embedding_receives_masked_amended (psvc : PIIService)
    (cs co bs : Nat) (text : List Char) (hbs : 1 ≤ bs) :
    embeddingCallsOf psvc cs co bs text
      = (chunkText cs co text).map (fun c => (detect_pii psvc c true).masked_text) := by
  unfold embeddingCallsOf
  rw [maskedChunksAndFlag_fst, embedCallTexts_eq]

/-- Witness for C1 (amended) at a concrete ingestion. -/
theorem c1_embedding_receives_masked_witness :
    embeddingCallsOf regexSvc 500 50 10 ("Hallo Welt. Dies ist ein Test.".data)
      = (chunkText 500 50 ("Hallo Welt. Dies ist ein Test.".data)).map
          (fun c => (detect_pii regexSvc c true).masked_text) :=
  c1_embedding_receives_masked_amended regexSvc 500 50 10
    ("Hallo Welt. Dies ist ein Test.".data) (by decide)

/-- C1 counterexample: ingesting `"12345 and 123456"` (one chunk) makes
exactly one embedding call, whose text `"[PLZ] and 123456"` still contains
the substring `"12345"` — the raw value recorded in that chunk's
`PIIResult` — because the masked five-digit value re-occurs inside the
longer, unmatched digit run. -/
theorem c1_counterexample :
    embeddingCallsOf regexSvc 500 50 10 plzInput
        = [(detect_pii regexSvc plzInput true).masked_text]
    ∧ ((detect_pii regexSvc plzInput true).matchList.map (fun m => m.value))
        = [("12345".data)]
    ∧ (detect_pii regexSvc plzInput true).masked_text = ("[PLZ] and 123456".data)
    ∧ containsSub ("12345".data)
        ((detect_pii regexSvc plzInput true).masked_text) = true := by
  refine ⟨by decide, by decide, by decide, by decide⟩


/-! ### C7: overlap resolution during masking -/

/-- Inserting into a descending-sorted list is a permutation of consing. -/
theorem insertDesc_perm (m : PIIMatch) :
    ∀ l : List PIIMatch, (insertDesc m l).Perm (m :: l) := by
  intro l
  induction l with
  | nil => exact List.Perm.refl _
  | cons x xs ih =>
      by_cases h : m.start ≤ x.start
      · simp only [insertDesc, if_pos h]
        exact (ih.cons x).trans (List.Perm.swap m x xs)
      · simp only [insertDesc, if_neg h]
        exact List.Perm.refl _

/-- Membership in `insertDesc m l` is membership in `m :: l`. -/
theorem mem_insertDesc {y m : PIIMatch} {l : List PIIMatch} :
    y ∈ insertDesc m l ↔ y ∈ m :: l := (insertDesc_perm m l).mem_iff

/-- `insertDesc` preserves descending sortedness by start offset. -/
theorem pairwise_insertDesc (m : PIIMatch) :
    ∀ l : List PIIMatch,
      List.Pairwise (fun a b => b.start ≤ a.start) l →
      List.Pairwise (fun a b => b.start ≤ a.start) (insertDesc m l) := by
  intro l
  induction l with
  | nil => intro _; simp [insertDesc]
  | cons x xs ih =>
      intro h
      rcases List.pairwise_cons.mp h with ⟨hx, hxs⟩
      by_cases hle : m.start ≤ x.start
      · simp only [insertDesc, if_pos hle]
        refine List.pairwise_cons.mpr ⟨?_, ih hxs⟩
        intro y hy
        rcases List.mem_cons.mp (mem_insertDesc.mp hy) with h1 | h1
        · subst h1; exact hle
        · exact hx y h1
      · simp only [insertDesc, if_neg hle]
        refine List.pairwise_cons.mpr ⟨?_, h⟩
        intro y hy
        rcases List.mem_cons.mp hy with h1 | h1
        · subst h1; exact Nat.le_of_lt (Nat.lt_of_not_le hle)
        · exact Nat.le_trans (hx y h1) (Nat.le_of_lt (Nat.lt_of_not_le hle))

/-- The fold computing `sortDesc`, from any sorted accumulator, stays
sorted. -/
theorem sortDesc_foldl_pairwise :
    ∀ (ms acc : List PIIMatch),
      List.Pairwise (fun a b => b.start ≤ a.start) acc →
      List.Pairwise (fun a b => b.start ≤ a.start)
        (ms.foldl (fun a m => insertDesc m a) acc) := by
  intro ms
  induction ms with
  | nil => intro acc h; exact h
  | cons m ms ih =>
      intro acc h
      exact ih _ (pairwise_insertDesc m acc h)

/-- The fold computing `sortDesc` permutes its input onto the accumulator. -/
theorem sortDesc_foldl_perm :
    ∀ (ms acc : List PIIMatch),
      (ms.foldl (fun a m => insertDesc m a) acc).Perm (ms ++ acc) := by
  intro ms
  induction ms with
  | nil => intro acc; exact List.Perm.refl _
  | cons m ms ih =>
      intro acc
      refine (ih (insertDesc m acc)).trans ?_
      refine (List.Perm.append_left ms (insertDesc_perm m acc)).trans ?_
      exact List.perm_middle

/-- Processing a candidate adds its span to the consumed set (whether it is
spliced or skipped, the span is consumed afterwards). -/
theorem maskLoop_consumed_mono :
    ∀ (l : List PIIMatch) (t : List Char) (c : List (Nat × Nat)) (sp : Nat × Nat),
      sp ∈ c → sp ∈ (maskLoop t l c).2 := by
  intro l
  induction l with
  | nil => intro t c sp h; exact h
  | cons m rest ih =>
      intro t c sp h
      by_cases hm : spanOf m ∈ c
      · simpa [maskLoop, hm] using ih _ _ sp h
      · simpa [maskLoop, hm] using ih _ _ sp (List.mem_cons_of_mem _ h)

/-- A candidate whose exact span was already consumed — either recorded in
the consumed set or carried by an earlier candidate of the walk — is
skipped: the walk behaves as if it were absent. -/
theorem maskLoop_skips_consumed_span :
    ∀ (l : List PIIMatch) (t : List Char) (c : List (Nat × Nat))
      (m : PIIMatch) (r : List PIIMatch),
      (spanOf m ∈ c ∨ spanOf m ∈ l.map spanOf) →
      maskLoop t (l ++ m :: r) c = maskLoop t (l ++ r) c := by
  intro l
  induction l with
  | nil =>
      intro t c m r h
      have hc : spanOf m ∈ c := by
        rcases h with h | h
        · exact h
        · simp at h
      simp [maskLoop, hc]
  | cons x l ih =>
      intro t c m r h
      have h' : ∀ c' : List (Nat × Nat), spanOf x ∈ c' → c ⊆ c' →
          (spanOf m ∈ c' ∨ spanOf m ∈ l.map spanOf) := by
        intro c' hxc hsub
        rcases h with h | h
        · exact Or.inl (hsub h)
        · rw [List.map_cons] at h
          rcases List.mem_cons.mp h with h1 | h1
          · exact Or.inl (by rw [h1]; exact hxc)
          · exact Or.inr h1
      by_cases hx : spanOf x ∈ c
      · simp only [List.cons_append, maskLoop, if_pos hx]
        exact ih t c m r (h' c hx (fun a ha => ha))
      · simp only [List.cons_append, maskLoop, if_neg hx]
        exact ih _ _ m r
          (h' (spanOf x :: c) (List.mem_cons_self _ _)
            (fun a ha => List.mem_cons_of_mem _ ha))

/-- When all candidate spans are pairwise distinct (textual overlap
allowed) and none is pre-consumed, every candidate is spliced: the walk
equals the plain splice fold with no skipping. -/
theorem maskLoop_all_applied :
    ∀ (ms : List PIIMatch) (t : List Char) (c : List (Nat × Nat)),
      (ms.map spanOf).Nodup → (∀ m ∈ ms, spanOf m ∉ c) →
      (maskLoop t ms c).1
        = ms.foldl (fun w m => splice w m.start m.endPos m.masked_value) t := by
  intro ms
  induction ms with
  | nil => intro t c _ _; rfl
  | cons m rest ih =>
      intro t c hnd hdis
      rw [List.map_cons] at hnd
      rcases List.nodup_cons.mp hnd with ⟨hm1, hm2⟩
      have hm : spanOf m ∉ c := hdis m (List.mem_cons_self _ _)
      simp only [maskLoop, if_neg hm, List.foldl_cons]
      refine ih _ _ hm2 ?_
      intro x hx hmem
      rcases List.mem_cons.mp hmem with hsp | hsp
      · exact hm1 (by
          have hmm : spanOf x ∈ rest.map spanOf := List.mem_map_of_mem spanOf hx
          rw [hsp] at hmm
          exact hmm)
      · exact hdis x (List.mem_cons_of_mem _ hx) hsp

/-- Splicing at offset `s` leaves every prefix up to `s` unchanged: earlier
replacements (higher start offsets) never shift the text addressed by the
offsets still to be processed. -/
theorem splice_take_prefix (t : List Char) (s e p : Nat) (r : List Char)
    (hp : p ≤ s) (hs : s ≤ t.length) :
    (splice t s e r).take p = t.take p := by
  unfold splice
  have hlen : p ≤ (t.take s).length := by
    rw [List.length_take]
    omega
  rw [List.append_assoc, List.take_append_of_le_length hlen, List.take_take,
    Nat.min_eq_left hp]

/-- C7: the masking pass (a) walks the candidates sorted by start offset
descending (a stable descending sort, a permutation of the candidate
list); (b) a candidate whose exact `(start, end)` span was already
consumed is skipped, so each distinct span is spliced exactly once; (c)
candidates with pairwise distinct spans — including textually overlapping,
non-identical ones — are all spliced, none is deduplicated; and (d) a
splice at offset `s` leaves all text before `s` untouched, which is why
the descending walk never shifts the offsets still to be processed. -/
theorem c7_overlap_resolution :
    (∀ (t : List Char) (ms : List PIIMatch),
        applyMasks t ms = (maskLoop t (sortDesc ms) []).1)
    ∧ (∀ ms : List PIIMatch,
        List.Pairwise (fun a b => b.start ≤ a.start) (sortDesc ms)
          ∧ (sortDesc ms).Perm ms)
    ∧ (∀ (t : List Char) (c : List (Nat × Nat)) (l r : List PIIMatch)
        (m : PIIMatch),
        spanOf m ∈ c ∨ spanOf m ∈ l.map spanOf →
        maskLoop t (l ++ m :: r) c = maskLoop t (l ++ r) c)
    ∧ (∀ (t : List Char) (c : List (Nat × Nat)) (ms : List PIIMatch),
        (ms.map spanOf).Nodup → (∀ m ∈ ms, spanOf m ∉ c) →
        (maskLoop t ms c).1
          = ms.foldl (fun w m => splice w m.start m.endPos m.masked_value) t)
    ∧ (∀ (t : List Char) (s e p : Nat) (r : List Char),
        p ≤ s → s ≤ t.length → (splice t s e r).take p = t.take p) := by
  refine ⟨fun t ms => rfl, ?_, ?_, ?_, ?_⟩
  · intro ms
    constructor
    · exact sortDesc_foldl_pairwise ms [] (List.Pairwise.nil)
    · simpa using sortDesc_foldl_perm ms []
  · intro t c l r m h
    exact maskLoop_skips_consumed_span l t c m r h
  · intro t c ms h1 h2
    exact maskLoop_all_applied ms t c h1 h2
  · intro t s e p r h1 h2
    exact splice_take_prefix t s e p r h1 h2

/-- Witness for C7 at concrete inputs: a duplicate span is skipped; two
textually overlapping but distinct spans are both spliced; a splice
preserves the prefix before its start offset. -/
theorem c7_overlap_resolution_witness :
    maskLoop ("abcdef".data) [wA, wB] [] = maskLoop ("abcdef".data) [wA] []
    ∧ (maskLoop ("abcdef".data) [wC, wD] []).1
        = [wC, wD].foldl (fun w m => splice w m.start m.endPos m.masked_value)
            ("abcdef".data)
    ∧ (splice ("abcdef".data) 3 5 ("[Z]".data)).take 2
        = ("abcdef".data).take 2 := by
  refine ⟨?_, ?_, ?_⟩
  · exact c7_overlap_resolution.2.2.1 ("abcdef".data) [] [wA] [] wB
      (Or.inr (by decide))
  · exact c7_overlap_resolution.2.2.2.1 ("abcdef".data) [] [wC, wD]
      (by decide) (by intro m hm hc; simp at hc)
  · exact c7_overlap_resolution.2.2.2.2 ("abcdef".data) 3 5 2 ("[Z]".data)
      (by decide) (by decide)


/-! ### Dictionary and store lemmas -/

/-- After `del d[k]`, `k` has no binding. -/
theorem lookupKey_removeKey_self (k : List Char) :
    ∀ l, lookupKey k (removeKey k l) = none := by
  intro l
  induction l with
  | nil => rfl
  | cons kv t ih =>
      by_cases h : kv.1 = k
      · simpa [removeKey, List.filter_cons, h] using ih
      · simpa [removeKey, List.filter_cons, h, lookupKey] using ih

/-- After `d[k] = v`, looking up `k` yields `v`. -/
theorem lookupKey_insertKey_self (k : List Char) (v : DocMeta)
    (l : List (List Char × DocMeta)) :
    lookupKey k (insertKey k v l) = some v := by
  simp [insertKey, lookupKey]

/-- Membership in `removeKey`. -/
theorem mem_removeKey {kv : List Char × DocMeta} {k : List Char}
    {l : List (List Char × DocMeta)} :
    kv ∈ removeKey k l ↔ kv ∈ l ∧ kv.1 ≠ k := by
  simp [removeKey, List.mem_filter]

/-- If no chunk id is found for a document, no index entry carries it. -/
theorem collectionGetIds_eq_nil {vs : List IndexEntry} {docId : List Char}
    (h : collectionGetIds vs docId = []) :
    ∀ e ∈ vs, e.docId ≠ docId := by
  intro e he
  unfold collectionGetIds at h
  rcases List.map_eq_nil_iff.mp h with hf
  intro hd
  have : e ∈ vs.filter (fun e => e.docId = docId) :=
    List.mem_filter.mpr ⟨he, by simp [hd]⟩
  rw [hf] at this
  simp at this

/-! ### C2: erasure against both stores -/

/-- Unfolding `delete_by_document_id` with `raises = False`. -/
theorem delete_by_document_id_false_eq (vs : List IndexEntry) (docId : List Char) :
    delete_by_document_id false vs docId
      = (if collectionGetIds vs docId ≠ [] then
          (collectionDeleteIds vs (collectionGetIds vs docId), true)
        else (vs, false)) := rfl

/-- A successful index-side deletion leaves no entry of the document. -/
theorem delete_by_document_id_false_no_doc (vs : List IndexEntry)
    (docId : List Char) :
    ∀ e ∈ (delete_by_document_id false vs docId).1, e.docId ≠ docId := by
  intro e he hd
  rw [delete_by_document_id_false_eq] at he
  by_cases hids : collectionGetIds vs docId = []
  · rw [if_neg (by simp [hids])] at he
    exact collectionGetIds_eq_nil hids e he hd
  · rw [if_pos hids] at he
    rcases List.mem_filter.mp he with ⟨hev, hpred⟩
    have hcid : e.cid ∈ collectionGetIds vs docId := by
      unfold collectionGetIds
      exact List.mem_map_of_mem _ (List.mem_filter.mpr ⟨hev, by simp [hd]⟩)
    exact (of_decide_eq_true hpred) hcid

/-- Unfolding `delete_document` when a metadata record exists. -/
theorem delete_document_present_eq (raises : Bool) (st : IngestStore)
    (docId : List Char) (h : (lookupKey docId st.metadata).isSome) :
    delete_document raises st docId
      = ({ index := (delete_by_document_id raises st.index docId).1,
           metadata := removeKey docId st.metadata }, true) := by
  have hne : ¬ ((lookupKey docId st.metadata).isNone = true) := by
    cases hl : lookupKey docId st.metadata with
    | none => rw [hl] at h; simp at h
    | some v => simp
  unfold delete_document
  rw [if_neg hne]

/-- C2 (amended): when a metadata record exists, `delete_document` runs the
index-side deletion (one batch `collection.delete` call inside
`delete_by_document_id`) and then removes the metadata record, returning
`True`; when the index-side deletion succeeds no chunk of the document
survives in the index.  However the return value of
`delete_by_document_id` is discarded: even when the index-side deletion
fails, the metadata record is still removed and `True` (success) is
reported — the partial failure is not surfaced (see the counterexample). -/
theorem c2_erasure_amended :
    (∀ (st : IngestStore) (docId : List Char),
        (lookupKey docId st.metadata).isSome →
        (delete_document false st docId).2 = true
        ∧ (∀ e ∈ (delete_document false st docId).1.index, e.docId ≠ docId)
        ∧ lookupKey docId (delete_document false st docId).1.metadata = none
        ∧ (delete_document false st docId).1.index
            = (delete_by_document_id false st.index docId).1)
    ∧ (∀ (raises : Bool) (st : IngestStore) (docId : List Char),
        (lookupKey docId st.metadata).isSome →
        (delete_document raises st docId).2 = true
        ∧ (delete_document raises st docId).1.metadata
            = removeKey docId st.metadata
        ∧ (delete_document raises st docId).1.index
            = (delete_by_document_id raises st.index docId).1) := by
  constructor
  · intro st docId h
    rw [delete_document_present_eq false st docId h]
    refine ⟨rfl, ?_, ?_, rfl⟩
    · exact delete_by_document_id_false_no_doc st.index docId
    · exact lookupKey_removeKey_self docId st.metadata
  · intro raises st docId h
    rw [delete_document_present_eq raises st docId h]
    exact ⟨rfl, rfl, rfl⟩

/-- Witness for C2 (amended) at the concrete store. -/
theorem c2_erasure_amended_witness :
    (delete_document false exStore ("d1".data)).2 = true
    ∧ lookupKey ("d1".data) (delete_document false exStore ("d1".data)).1.metadata
        = none := by
  have h := c2_erasure_amended.1 exStore ("d1".data) (by decide)
  exact ⟨h.1, h.2.2.1⟩

/-- C2 counterexample: when the index-side deletion raises (is swallowed
and reported as `False` by `delete_by_document_id`), `delete_document`
still returns `True` and removes the metadata record while the document's
chunk is still in the vector index — the partial failure is reported as
success. -/
theorem c2_counterexample :
    (delete_document true exStore ("d1".data)).2 = true
    ∧ (delete_document true exStore ("d1".data)).1.index
        = [{ cid := ("d1_chunk_0".data), docId := ("d1".data) }]
    ∧ (delete_document true exStore ("d1".data)).1.metadata = [] := by
  refine ⟨by decide, by decide, by decide⟩


/-! ### C6: what `erase` returns -/

/-- The store after a successful `process_document` run (nonempty text,
upsert succeeds): chunks appended to the index, metadata record written. -/
theorem processDocument_ok_snd (psvc : PIIService) (cs co bs : Nat)
    (docId fn text : List Char) (st : IngestStore) (h : text ≠ []) :
    (processDocument psvc cs co bs false docId fn text st).2
      = { index := st.index
            ++ (List.range (maskedChunksAndFlag psvc (chunkText cs co text)).1.length).map
                 (fun i => { cid := mkCid docId i, docId := docId }),
          metadata := insertKey docId
            { filename := fn, chunk_count := (chunkText cs co text).length,
              pii_detected := (maskedChunksAndFlag psvc (chunkText cs co text)).2 }
            st.metadata } := by
  unfold processDocument
  rw [if_neg h]
  rfl

/-- C6 (amended): `erase` (`delete_document`) returns `False` exactly when
no METADATA RECORD exists for the identifier — the guard tests
`documents_metadata`, not the chunks found in the index (the original
claim's chunk-based reading fails; see the counterexample).  For a
successfully ingested document, the first `erase` returns `True` and a
second `erase` of the same identifier returns `False`. -/
theorem c6_erase_return_amended :
    (∀ (raises : Bool) (st : IngestStore) (docId : List Char),
        ((delete_document raises st docId).2 = false
          ↔ lookupKey docId st.metadata = none))
    ∧ (∀ (psvc : PIIService) (cs co bs : Nat) (docId fn text : List Char)
        (st : IngestStore), text ≠ [] →
        (delete_document false
            (processDocument psvc cs co bs false docId fn text st).2 docId).2 = true
        ∧ (delete_document false
            (delete_document false
              (processDocument psvc cs co bs false docId fn text st).2 docId).1
            docId).2 = false) := by
  have hfalse : ∀ (raises : Bool) (st : IngestStore) (docId : List Char),
      ((delete_document raises st docId).2 = false
        ↔ lookupKey docId st.metadata = none) := by
    intro raises st docId
    cases hl : lookupKey docId st.metadata with
    | none =>
        unfold delete_document
        rw [if_pos (by simp [hl])]
        simp
    | some v =>
        rw [delete_document_present_eq raises st docId (by simp [hl])]
        simp
  constructor
  · exact hfalse
  · intro psvc cs co bs docId fn text st h
    rw [processDocument_ok_snd psvc cs co bs docId fn text st h]
    have hsome : (lookupKey docId (insertKey docId
        { filename := fn, chunk_count := (chunkText cs co text).length,
          pii_detected := (maskedChunksAndFlag psvc (chunkText cs co text)).2 }
        st.metadata)).isSome := by
      rw [lookupKey_insertKey_self]
      rfl
    constructor
    · rw [delete_document_present_eq false _ docId hsome]
    · apply (hfalse false _ docId).mpr
      rw [delete_document_present_eq false _ docId hsome]
      exact lookupKey_removeKey_self docId _

/-- Witness for C6 (amended): a concrete successful ingestion followed by
two erasures returns `True` then `False`. -/
theorem c6_erase_return_amended_witness :
    (delete_document false
        (processDocument regexSvc 9 6 10 false ("d1".data) ("f.txt".data)
          ("Hallo Welt.".data) { index := [], metadata := [] }).2
        ("d1".data)).2 = true
    ∧ (delete_document false
        (delete_document false
          (processDocument regexSvc 9 6 10 false ("d1".data) ("f.txt".data)
            ("Hallo Welt.".data) { index := [], metadata := [] }).2
          ("d1".data)).1
        ("d1".data)).2 = false :=
  c6_erase_return_amended.2 regexSvc 9 6 10 ("d1".data) ("f.txt".data)
    ("Hallo Welt.".data) { index := [], metadata := [] } (by decide)

/-- C6 counterexample: chunks for the identifier ARE found in the index,
yet `erase` returns `False` (and deletes nothing), because the guard
tests the metadata record, not the chunks — refuting "returns false
exactly when no chunks for that identifier are found". -/
theorem c6_counterexample :
    collectionGetIds orphanStore.index ("d1".data) ≠ []
    ∧ (delete_document false orphanStore ("d1".data)).2 = false
    ∧ (delete_document false orphanStore ("d1".data)).1 = orphanStore := by
  refine ⟨by decide, by decide, by decide⟩


/-! ### C5: upsert failure leaves no metadata; reachable-state invariant -/

/-- No decimal digit character is an underscore. -/
theorem digitOf_ne_underscore (k : Nat) : digitOf k ≠ '_' := by
  unfold digitOf
  split <;> decide

/-- Characters pushed by the decimal printer are never underscores. -/
theorem natDigitsF_ne_underscore :
    ∀ (fuel n : Nat) (acc : List Char), (∀ c ∈ acc, c ≠ '_') →
      ∀ c ∈ natDigitsF fuel n acc, c ≠ '_' := by
  intro fuel
  induction fuel with
  | zero => intro n acc h c hc; exact h c hc
  | succ f ih =>
      intro n acc h c hc
      unfold natDigitsF at hc
      by_cases hn : n = 0
      · rw [if_pos hn] at hc; exact h c hc
      · rw [if_neg hn] at hc
        refine ih _ _ ?_ c hc
        intro d hd
        rcases List.mem_cons.mp hd with rfl | hd
        · exact digitOf_ne_underscore _
        · exact h d hd

/-- The decimal representation of a natural contains no underscore. -/
theorem natDigits_ne_underscore (n : Nat) :
    ∀ c ∈ natDigits n, c ≠ '_' := by
  intro c hc
  unfold natDigits at hc
  by_cases hn : n = 0
  · rw [if_pos hn] at hc
    rcases List.mem_singleton.mp hc with rfl
    decide
  · rw [if_neg hn] at hc
    exact natDigitsF_ne_underscore n n [] (by intro d hd; simp at hd) c hc

/-- `takeWhile` stops exactly at the first failing element. -/
theorem takeWhile_append_sentinel {p : Char → Bool} :
    ∀ (l1 : List Char) (b : Char) (l2 : List Char),
      (∀ c ∈ l1, p c = true) → p b = false →
      List.takeWhile p (l1 ++ b :: l2) = l1 := by
  intro l1
  induction l1 with
  | nil => intro b l2 _ hb; simp [List.takeWhile_cons, hb]
  | cons x xs ih =>
      intro b l2 hall hb
      have hx := hall x (List.mem_cons_self _ _)
      simp only [List.cons_append, List.takeWhile_cons, hx, if_true]
      rw [ih b l2 (fun c hc => hall c (List.mem_cons_of_mem _ hc)) hb]

/-- The reverse of a chunk id, exposing the underscore sentinel between the
digit suffix and the rest. -/
theorem mkCid_reverse (a : List Char) (i : Nat) :
    (mkCid a i).reverse
      = (natDigits i).reverse ++ '_' :: (("knuhc_".data) ++ a.reverse) := by
  unfold mkCid
  rw [List.reverse_append, List.reverse_append]
  have hsep : ("_chunk_".data).reverse = '_' :: ("knuhc_".data) := by decide
  rw [hsep]
  simp [List.append_assoc]

/-- Two equal chunk ids come from the same document identifier: the digit
suffix is recovered as the maximal non-underscore suffix, and the rest
cancels. -/
theorem mkCid_docId_inj {a b : List Char} {i j : Nat}
    (h : mkCid a i = mkCid b j) : a = b := by
  have hrev : (natDigits i).reverse ++ '_' :: (("knuhc_".data) ++ a.reverse)
      = (natDigits j).reverse ++ '_' :: (("knuhc_".data) ++ b.reverse) := by
    rw [← mkCid_reverse, ← mkCid_reverse, h]
  have htwi : List.takeWhile (fun c => c != '_')
        ((natDigits i).reverse ++ '_' :: (("knuhc_".data) ++ a.reverse))
      = (natDigits i).reverse := by
    refine takeWhile_append_sentinel _ '_' _ ?_ (by decide)
    intro c hc
    have : c ≠ '_' := natDigits_ne_underscore i c (List.mem_reverse.mp hc)
    simpa using this
  have htwj : List.takeWhile (fun c => c != '_')
        ((natDigits j).reverse ++ '_' :: (("knuhc_".data) ++ b.reverse))
      = (natDigits j).reverse := by
    refine takeWhile_append_sentinel _ '_' _ ?_ (by decide)
    intro c hc
    have : c ≠ '_' := natDigits_ne_underscore j c (List.mem_reverse.mp hc)
    simpa using this
  have hdig : (natDigits i).reverse = (natDigits j).reverse := by
    rw [← htwi, ← htwj, hrev]
  rw [hdig] at hrev
  have htail : '_' :: (("knuhc_".data) ++ a.reverse)
      = '_' :: (("knuhc_".data) ++ b.reverse) := by
    exact List.append_cancel_left hrev
  have habr : a.reverse = b.reverse :=
    List.append_cancel_left (List.tail_eq_of_cons_eq htail)
  exact List.reverse_injective habr

/-- `masked_chunks` has one entry per chunk. -/
theorem maskedChunksAndFlag_length (psvc : PIIService)
    (chunks : List (List Char)) :
    (maskedChunksAndFlag psvc chunks).1.length = chunks.length := by
  rw [maskedChunksAndFlag_fst]
  exact List.length_map _ _

/-- A failed ingestion (empty text) leaves the store unchanged. -/
theorem processDocument_empty_snd (psvc : PIIService) (cs co bs : Nat)
    (fail : Bool) (docId fn : List Char) (st : IngestStore) :
    (processDocument psvc cs co bs fail docId fn [] st).2 = st := rfl

/-- A failed upsert leaves the store unchanged. -/
theorem processDocument_upsertFail_snd (psvc : PIIService) (cs co bs : Nat)
    (docId fn text : List Char) (st : IngestStore) :
    (processDocument psvc cs co bs true docId fn text st).2 = st := by
  unfold processDocument
  by_cases ht : text = []
  · rw [if_pos ht]
  · rw [if_neg ht]
    rfl

/-- An erasure of an id with no metadata record leaves the store
unchanged. -/
theorem delete_document_absent_fst (raises : Bool) (st : IngestStore)
    (docId : List Char) (h : (lookupKey docId st.metadata).isNone) :
    (delete_document raises st docId).1 = st := by
  unfold delete_document
  rw [if_pos h]

/-- Every reachable store is well-formed and every metadata record's chunks
are present in the index: no reachable state has a metadata record whose
chunks are absent from the vector index. -/
theorem reachable_wf_and_chunksPresent :
    ∀ st, Reachable st → wfIndex st ∧ chunksPresent st := by
  intro st h
  induction h with
  | init =>
      constructor
      · intro e he; simp at he
      · intro kv hkv; simp at hkv
  | ingest psvc cs co bs fail docId fn text st hst ih =>
      rcases ih with ⟨hwf, hcp⟩
      by_cases ht : text = []
      · rw [ht, processDocument_empty_snd]; exact ⟨hwf, hcp⟩
      · cases fail with
        | true => rw [processDocument_upsertFail_snd]; exact ⟨hwf, hcp⟩
        | false =>
            rw [processDocument_ok_snd psvc cs co bs docId fn text st ht]
            constructor
            · intro e he
              rcases List.mem_append.mp he with he | he
              · exact hwf e he
              · rcases List.mem_map.mp he with ⟨i, _, rfl⟩
                exact ⟨i, rfl⟩
            · intro kv hkv i hi
              unfold insertKey at hkv
              rcases List.mem_cons.mp hkv with rfl | hkv'
              · refine List.mem_append_right _ ?_
                refine List.mem_map.mpr ⟨i, ?_, rfl⟩
                refine List.mem_range.mpr ?_
                rw [maskedChunksAndFlag_length]
                exact hi
              · rcases mem_removeKey.mp hkv' with ⟨hmem, _⟩
                exact List.mem_append_left _ (hcp kv hmem i hi)
  | erase raises docId st hst ih =>
      rcases ih with ⟨hwf, hcp⟩
      by_cases hl : (lookupKey docId st.metadata).isNone
      · rw [delete_document_absent_fst raises st docId hl]; exact ⟨hwf, hcp⟩
      · have hsome : (lookupKey docId st.metadata).isSome = true := by
          cases ho : lookupKey docId st.metadata with
          | none => rw [ho] at hl; simp at hl
          | some v => simp
        rw [delete_document_present_eq raises st docId hsome]
        have hmeta : ∀ kv ∈ removeKey docId st.metadata,
            kv ∈ st.metadata ∧ kv.1 ≠ docId := fun kv hkv => mem_removeKey.mp hkv
        cases raises with
        | true =>
            constructor
            · intro e he; exact hwf e he
            · intro kv hkv i hi
              exact hcp kv (hmeta kv hkv).1 i hi
        | false =>
            by_cases hids : collectionGetIds st.index docId = []
            · constructor
              · intro e he
                rw [delete_by_document_id_false_eq,
                  if_neg (by simp [hids])] at he
                exact hwf e he
              · intro kv hkv i hi
                show _ ∈ (delete_by_document_id false st.index docId).1
                rw [delete_by_document_id_false_eq, if_neg (by simp [hids])]
                exact hcp kv (hmeta kv hkv).1 i hi
            · constructor
              · intro e he
                rw [delete_by_document_id_false_eq, if_pos hids] at he
                exact hwf e (List.mem_filter.mp he).1
              · intro kv hkv i hi
                show _ ∈ (delete_by_document_id false st.index docId).1
                rw [delete_by_document_id_false_eq, if_pos hids]
                refine List.mem_filter.mpr
                  ⟨hcp kv (hmeta kv hkv).1 i hi, decide_eq_true ?_⟩
                intro hin
                rcases List.mem_map.mp hin with ⟨e', he', hcid⟩
                rcases List.mem_filter.mp he' with ⟨he'i, hpred⟩
                have hed : e'.docId = docId := of_decide_eq_true hpred
                rcases hwf e' he'i with ⟨j, hj⟩
                have hcid' : e'.cid = mkCid kv.1 i := hcid
                have : mkCid kv.1 i = mkCid docId j := by
                  rw [← hcid', hj, hed]
                exact (hmeta kv hkv).2 (mkCid_docId_inj this)

/-- C5: an ingestion whose vector-index upsert fails returns the
`upsertFailed` error and leaves the store — index, metadata and therefore
every listing — exactly unchanged: no metadata record is written for the
document.  Moreover, over all reachable states (any sequence of
ingestions and erasures from an empty deployment), no metadata record
ever exists whose chunks are absent from the vector index. -/
theorem c5_upsert_failure_no_metadata :
    (∀ (psvc : PIIService) (cs co bs : Nat) (docId fn text : List Char)
        (st : IngestStore), text ≠ [] →
        processDocument psvc cs co bs true docId fn text st
          = (.error .upsertFailed, st))
    ∧ (∀ st, Reachable st → ∀ kv ∈ st.metadata, ∀ i, i < kv.2.chunk_count →
        ({ cid := mkCid kv.1 i, docId := kv.1 } : IndexEntry) ∈ st.index) := by
  constructor
  · intro psvc cs co bs docId fn text st h
    unfold processDocument
    rw [if_neg h]
    rfl
  · intro st h
    exact (reachable_wf_and_chunksPresent st h).2


/-- Witness for C5: a concrete failed upsert changes nothing, and a
concrete successfully ingested document has its chunk in the index. -/
theorem c5_upsert_failure_no_metadata_witness :
    processDocument regexSvc 9 6 10 true ("d1".data) ("f.txt".data)
        ("Hallo Welt.".data) { index := [], metadata := [] }
      = (.error .upsertFailed, { index := [], metadata := [] })
    ∧ ({ cid := mkCid ("d1".data) 0, docId := ("d1".data) } : IndexEntry)
        ∈ (processDocument regexSvc 9 6 10 false ("d1".data) ("f.txt".data)
            ("Hallo Welt.".data) { index := [], metadata := [] }).2.index := by
  constructor
  · exact c5_upsert_failure_no_metadata.1 regexSvc 9 6 10 ("d1".data)
      ("f.txt".data) ("Hallo Welt.".data) { index := [], metadata := [] }
      (by decide)
  · exact c5_upsert_failure_no_metadata.2 _
      (Reachable.ingest regexSvc 9 6 10 false ("d1".data) ("f.txt".data)
        ("Hallo Welt.".data) { index := [], metadata := [] } Reachable.init)
      (("d1".data),
        { filename := ("f.txt".data), chunk_count := 1, pii_detected := false })
      (by decide) 0 (by decide)


/-! ### C8: the overlap seeding of consecutive chunks -/

/-- `joinSpace` over a cons with a nonempty tail. -/
theorem joinSpace_cons_of_ne (x : List Char) (r : List (List Char))
    (hr : r ≠ []) : joinSpace (x :: r) = x ++ ' ' :: joinSpace r := by
  cases r with
  | nil => exact absurd rfl hr
  | cons y t => rfl

/-- `joinSpace` distributes over append of nonempty lists, with a single
separating space. -/
theorem joinSpace_append_of_ne :
    ∀ (a b : List (List Char)), a ≠ [] → b ≠ [] →
      joinSpace (a ++ b) = joinSpace a ++ ' ' :: joinSpace b := by
  intro a
  induction a with
  | nil => intro b h hb; exact absurd rfl h
  | cons x xs ih =>
      intro b _ hb
      by_cases hxs : xs = []
      · subst hxs
        exact joinSpace_cons_of_ne x b hb
      · have hab : xs ++ b ≠ [] := by
          intro h0
          exact hxs (List.append_eq_nil.mp h0).1
        rw [List.cons_append, joinSpace_cons_of_ne x (xs ++ b) hab,
          ih b hxs hb, joinSpace_cons_of_ne x xs hxs]
        simp [List.append_assoc]

/-- A list is a (Boolean) prefix of itself followed by anything. -/
theorem isPrefixOf_append_self :
    ∀ (l t : List Char), l.isPrefixOf (l ++ t) = true := by
  intro l
  induction l with
  | nil => intro t; simp [List.isPrefixOf]
  | cons c cs ih => intro t; simp [List.isPrefixOf, ih]

/-- `joinSpace a` is a prefix of `joinSpace (a ++ rest)` for nonempty
`rest`. -/
theorem joinSpace_prefix_append (a rest : List (List Char)) (hr : rest ≠ []) :
    (joinSpace a).isPrefixOf (joinSpace (a ++ rest)) = true := by
  cases a with
  | nil => simp [joinSpace, List.isPrefixOf]
  | cons x xs =>
      rw [joinSpace_append_of_ne _ _ (by simp) hr]
      exact isPrefixOf_append_self _ _

/-- The running-length invariant of the overlap walk: the accumulated
length never exceeds `co`, and the joined accumulator is one shorter than
the running length. -/
theorem overlapWalk_invariant (co : Nat) :
    ∀ (ws acc : List (List Char)) (n : Nat),
      n ≤ co → (acc = [] → n = 0) →
      (acc ≠ [] → (joinSpace acc).length + 1 = n) →
      ((overlapWalk co ws acc n).2 ≤ co
        ∧ ((overlapWalk co ws acc n).1 = [] → (overlapWalk co ws acc n).2 = 0)
        ∧ ((overlapWalk co ws acc n).1 ≠ [] →
            (joinSpace (overlapWalk co ws acc n).1).length + 1
              = (overlapWalk co ws acc n).2)) := by
  intro ws
  induction ws with
  | nil => intro acc n h1 h2 h3; exact ⟨h1, h2, h3⟩
  | cons w ws ih =>
      intro acc n h1 h2 h3
      unfold overlapWalk
      by_cases hc : n + w.length < co
      · rw [if_pos hc]
        refine ih (w :: acc) (n + w.length + 1) (by omega) (by simp) ?_
        intro _
        cases hacc : acc with
        | nil =>
            have hn : n = 0 := h2 hacc
            simp [joinSpace]
            omega
        | cons y t =>
            have hne : acc ≠ [] := by rw [hacc]; simp
            have hlen := h3 hne
            rw [← hacc, joinSpace_cons_of_ne w acc hne]
            simp only [List.length_append, List.length_cons]
            omega
      · rw [if_neg hc]
        exact ⟨h1, h2, h3⟩

/-- The carried seed is at most `overlap_size` characters long. -/
theorem seedStr_length_le (co : Nat) (t : List Char) :
    (seedStr co t).length ≤ co := by
  unfold seedStr seedWords
  by_cases h : t.length > co
  · rw [if_pos h]
    have hinv := overlapWalk_invariant co (splitWS t).reverse [] 0
      (Nat.zero_le co) (fun _ => rfl) (by intro hne; exact absurd rfl hne)
    rcases hinv with ⟨hle, hnil, hjoin⟩
    by_cases hres : (overlapWalk co (splitWS t).reverse [] 0).1 = []
    · rw [hres]; exact Nat.zero_le co
    · have := hjoin hres
      omega
  · rw [if_neg h]
    exact Nat.zero_le co

/-- A closed chunk not longer than `overlap_size` carries no seed. -/
theorem seedStr_eq_nil_of_le (co : Nat) (t : List Char)
    (h : t.length ≤ co) : seedStr co t = [] := by
  unfold seedStr seedWords
  rw [if_neg (by omega)]
  rfl

/-- One loop iteration preserves the invariant. -/
theorem chunkStep_inv (cs co : Nat) (sent : List Char)
    (st : List (List Char) × List (List Char) × Nat)
    (h : ChunkStInv co st) : ChunkStInv co (chunkStep cs co st sent) := by
  obtain ⟨chunks, cur, curLen⟩ := st
  have hchain : List.Chain' (fun a b => (seedStr co a).isPrefixOf b = true)
      chunks := h.1
  unfold chunkStep
  dsimp only
  by_cases hs : stripWS sent = []
  · rw [if_pos hs]; exact h
  · rw [if_neg hs]
    by_cases hcl : curLen + (stripWS sent).length > cs ∧ cur ≠ []
    · rw [if_pos hcl]
      constructor
      · show List.Chain' _ (chunks ++ [joinSpace cur])
        rw [List.chain'_append]
        refine ⟨hchain, List.chain'_singleton _, ?_⟩
        intro x hx y hy
        have hchunks : chunks ≠ [] := by
          intro hc; rw [hc] at hx; simp at hx
        rcases h.2 hchunks with ⟨rest, hrne, hcur⟩
        have hcur' : cur = seedWords co (chunks.getLast?.getD []) ++ rest :=
          hcur
        have hy' : y = joinSpace cur := by simpa using hy.symm
        have hx' : x = chunks.getLast?.getD [] := by
          cases hgl : chunks.getLast? with
          | none => rw [hgl] at hx; simp at hx
          | some z => rw [hgl] at hx; simp at hx; simp [hx]
        rw [hy', hx', hcur']
        exact joinSpace_prefix_append _ rest hrne
      · intro _
        refine ⟨[stripWS sent], by simp, ?_⟩
        show seedWords co (joinSpace cur) ++ [stripWS sent]
          = seedWords co ((chunks ++ [joinSpace cur]).getLast?.getD [])
              ++ [stripWS sent]
        rw [List.getLast?_concat]
        rfl
    · rw [if_neg hcl]
      constructor
      · exact hchain
      · intro hchunks
        rcases h.2 hchunks with ⟨rest, hrne, hcur⟩
        have hcur' : cur = seedWords co (chunks.getLast?.getD []) ++ rest :=
          hcur
        refine ⟨rest ++ [stripWS sent], by simp, ?_⟩
        show cur ++ [stripWS sent]
          = seedWords co (chunks.getLast?.getD []) ++ (rest ++ [stripWS sent])
        rw [hcur', List.append_assoc]

/-- The whole sentence loop preserves the invariant. -/
theorem chunkFold_inv (cs co : Nat) :
    ∀ (sents : List (List Char))
      (st : List (List Char) × List (List Char) × Nat),
      ChunkStInv co st →
      ChunkStInv co (sents.foldl (chunkStep cs co) st) := by
  intro sents
  induction sents with
  | nil => intro st h; exact h
  | cons s ss ih => intro st h; exact ih _ (chunkStep_inv cs co s st h)

/-- Flushing the accumulator preserves the pairwise seeding relation. -/
theorem chunkFlush_chain (co : Nat)
    (st : List (List Char) × List (List Char) × Nat)
    (h : ChunkStInv co st) :
    List.Chain' (fun a b => (seedStr co a).isPrefixOf b = true)
      (chunkFlush st) := by
  obtain ⟨chunks, cur, curLen⟩ := st
  have hchain : List.Chain' (fun a b => (seedStr co a).isPrefixOf b = true)
      chunks := h.1
  unfold chunkFlush
  dsimp only
  by_cases hc : cur ≠ []
  · rw [if_pos hc]
    rw [List.chain'_append]
    refine ⟨hchain, List.chain'_singleton _, ?_⟩
    intro x hx y hy
    have hchunks : chunks ≠ [] := by
      intro hcc; rw [hcc] at hx; simp at hx
    rcases h.2 hchunks with ⟨rest, hrne, hcur⟩
    have hcur' : cur = seedWords co (chunks.getLast?.getD []) ++ rest := hcur
    have hy' : y = joinSpace cur := by simpa using hy.symm
    have hx' : x = chunks.getLast?.getD [] := by
      cases hgl : chunks.getLast? with
      | none => rw [hgl] at hx; simp at hx
      | some z => rw [hgl] at hx; simp at hx; simp [hx]
    rw [hy', hx', hcur']
    exact joinSpace_prefix_append _ rest hrne
  · rw [if_neg hc]
    exact hchain

/-- C8 (amended): every chunk after the first starts with the seed of the
chunk closed before it, where the seed is the backward word walk bounded
by `overlap_size` — applied only when the closed chunk's text is STRICTLY
LONGER than `overlap_size`, and empty when the closed text's length is
less than OR EQUAL TO `overlap_size` (the original claim said "shorter
than"; at exact equality the code carries no seed, see the
counterexample).  The carried seed is at most `overlap_size` characters,
so the overlap it creates between consecutive chunks is bounded by
`overlap_size`. -/
theorem c8_chunk_overlap_amended (cs co : Nat) (text : List Char) :
    List.Chain' (fun a b => (seedStr co a).isPrefixOf b = true)
      (chunkText cs co text)
    ∧ (∀ t : List Char, (seedStr co t).length ≤ co)
    ∧ (∀ t : List Char, t.length ≤ co → seedStr co t = []) := by
  refine ⟨?_, fun t => seedStr_length_le co t,
    fun t ht => seedStr_eq_nil_of_le co t ht⟩
  unfold chunkText
  apply chunkFlush_chain
  apply chunkFold_inv
  exact ⟨List.chain'_nil, fun hne => absurd rfl hne⟩

/-- Witness for C8 (amended) at concrete chunkings. -/
theorem c8_chunk_overlap_amended_witness :
    List.Chain' (fun a b => (seedStr 10 a).isPrefixOf b = true)
      (chunkText 25 10
        ("Hallo Welt. Dies ist ein Test. Noch ein Satz hier. Ende gut.".data))
    ∧ seedStr 6 ("ab cd.".data) = [] := by
  constructor
  · exact (c8_chunk_overlap_amended 25 10
      ("Hallo Welt. Dies ist ein Test. Noch ein Satz hier. Ende gut.".data)).1
  · exact (c8_chunk_overlap_amended 9 6 []).2.2 ("ab cd.".data) (by decide)

/-- C8 counterexample: chunking `"ab cd. efg"` with `chunk_size = 9`,
`overlap_size = 6` closes the chunk `"ab cd."` whose length equals
`overlap_size` exactly.  The claim's rule (empty only when strictly
shorter) demands the next chunk be seeded with `"cd."`, but the code
starts the next chunk empty: the second chunk is `"efg"`, which does not
start with `"cd."`. -/
theorem c8_counterexample :
    chunkText 9 6 ("ab cd. efg".data) = [("ab cd.".data), ("efg".data)]
    ∧ ¬ (("ab cd.".data).length < 6)
    ∧ claimSeed 6 ("ab cd.".data) = ("cd.".data)
    ∧ (claimSeed 6 ("ab cd.".data)).isPrefixOf ("efg".data) = false
    ∧ seedStr 6 ("ab cd.".data) = [] := by
  refine ⟨by decide, by decide, by decide, by decide, by decide⟩

end Sentinel
